import Mathlib

/-!
# Verification of the USC schedule-builder core (`src/app.py`)

A shallow embedding of the schedule-generation core of `src/app.py`:

* `parse_time` (app.py 139–143), `parse_days` (145–157),
  `has_time_conflict` (159–180);
* the section classifier (`get_sections_by_type`, 211–219, together with
  the per-course grouping at 233–253);
* `generate_diverse_schedules` (221–329): the lecture cross-product,
  the shuffled combination loop, the three assembly variations per
  combination, secondary-section attachment and deduplication.

Python exceptions are modelled by `Option`: a result of `none` means the
Python code raised (KeyError / ValueError / TypeError / IndexError), a
result of `some v` means it returned `v` normally.  The process-global
randomness (`random.shuffle`, `random.sample`) is modelled by explicit
parameters: a `shuffle` function applied once to the combination list and
an `oracle : Nat → List Sect → List Sect` supplying the outcome of each
successive `random.sample` call (the `Nat` is a call counter threaded
through the search).  Machine integers do not occur; ids and clock times
are naturals.
-/

namespace ScheduleBuilder

/-- A section record, modelling the JSON section dicts consumed by
`generate_diverse_schedules`.  `day`, `start_time` and `end_time` are
`Option String` (`none` models JSON `null`); section ids are modelled as
naturals (the algorithm only compares and sorts them). `course_id` models
the tag written by line 240 of `app.py`. -/
structure Sect where
  id : Nat
  type : String
  day : Option String
  start_time : Option String
  end_time : Option String
  course_id : String
deriving DecidableEq, Repr

/-- Python truthiness of an optional string field: `None` and `""` are
falsy, everything else (including `"TBA"`) is truthy. -/
def truthy : Option String → Bool
  | none => false
  | some s => !(s == "")

/-- The five weekday values produced by `parse_days` (app.py 150–156). -/
inductive Weekday where
  | monday | tuesday | wednesday | thursday | friday
deriving DecidableEq, Repr

/-- The `day_map` dict of `parse_days` (app.py 150–156): `none` models a
`KeyError` on an unknown day symbol. -/
def day_map (c : Char) : Option Weekday :=
  if c = 'M' then some .monday
  else if c = 'T' then some .tuesday
  else if c = 'W' then some .wednesday
  else if c = 'H' then some .thursday
  else if c = 'F' then some .friday
  else none

/-- The comprehension `[day_map[d] for d in str(day)]` (app.py 157):
fails (`none`) as soon as one character is not in `day_map`. -/
def map_days : List Char → Option (List Weekday)
  | [] => some []
  | c :: cs =>
    match day_map c with
    | none => none
    | some d =>
      match map_days cs with
      | none => none
      | some ds => some (d :: ds)

/-- Model of `parse_days` (app.py 145–157).  A falsy argument (`None` or `""`)
yields `[]`; otherwise every character is looked up in `day_map`,
raising (`none`) on an unknown symbol. -/
def parse_days (day : Option String) : Option (List Weekday) :=
  match day with
  | none => some []
  | some s => if s = "" then some [] else map_days s.toList

/-- Numeric value of a nonempty all-digit character list. -/
def digitsVal? (cs : List Char) : Option Nat :=
  if cs ≠ [] ∧ cs.all Char.isDigit then
    some (cs.foldl (fun a c => a * 10 + (c.toNat - 48)) 0)
  else none

/-- Split a character list at each `':'` (the field separation performed
by `strptime` for the format `'%H:%M'`). -/
def splitColon : List Char → List (List Char)
  | [] => [[]]
  | c :: cs =>
    let rest := splitColon cs
    if c = ':' then [] :: rest
    else
      match rest with
      | [] => [[c]]
      | r :: rs => (c :: r) :: rs

/-- Model of `datetime.strptime(s, '%H:%M').time()` (app.py 143): one or
two digits of hour (0–23), a colon, one or two digits of minute (0–59),
nothing else; the resulting `datetime.time` is encoded as minutes past
midnight, which orders exactly as `time` objects do.  `none` models the
`ValueError` raised on any other string. -/
def strptime_HM (s : String) : Option Nat :=
  match splitColon s.toList with
  | [h, m] =>
    match digitsVal? h, digitsVal? m with
    | some hv, some mv =>
      if h.length ≤ 2 ∧ m.length ≤ 2 ∧ hv ≤ 23 ∧ mv ≤ 59 then
        some (hv * 60 + mv)
      else none
    | _, _ => none
  | _ => none

/-- Model of `parse_time` (app.py 139–143).  Outer `none` models a raised
`ValueError`; `some none` is Python's `None` return for a falsy or
`"TBA"` argument; `some (some t)` is a concrete `datetime.time`. -/
def parse_time (time_str : Option String) : Option (Option Nat) :=
  match time_str with
  | none => some none
  | some s =>
    if s = "" ∨ s = "TBA" then some none
    else
      match strptime_HM s with
      | some t => some (some t)
      | none => none

/-- Comparison `a <= b` of two Python values that are `datetime.time` or
`None`: `none` models the `TypeError` raised when either side is `None`. -/
def optLe (a b : Option Nat) : Option Bool :=
  match a, b with
  | some x, some y => some (decide (x ≤ y))
  | _, _ => none

/-- Model of `has_time_conflict` (app.py 159–180).  Faithful to evaluation order:
the truthiness guard on the two `start_time`s, then both `parse_days`
calls, then the common-day check, then the four `parse_time` calls, then
`(t1s <= t2e) and (t2s <= t1e)` with Python's short-circuit `and` (the
second comparison is not evaluated when the first is `False`). -/
def has_time_conflict (s1 s2 : Sect) : Option Bool :=
  if !truthy s1.start_time || !truthy s2.start_time then
    some false
  else
    match parse_days s1.day, parse_days s2.day with
    | some days1, some days2 =>
      if days1.filter (fun d => days2.contains d) = [] then
        some false
      else
        match parse_time s1.start_time, parse_time s1.end_time,
              parse_time s2.start_time, parse_time s2.end_time with
        | some t1s, some t1e, some t2s, some t2e =>
          match optLe t1s t2e with
          | some false => some false
          | some true => optLe t2s t1e
          | none => none
        | _, _, _, _ => none
    | _, _ => none

/-- One element of `courses_data` (app.py 233–234): a course dict with
its `published_course_id` and its raw `sections` list. -/
structure Course where
  published_course_id : String
  sections : List Sect
deriving DecidableEq, Repr

/-- The mutation `section['course_id'] = course_id` (app.py 238–240). -/
def tag_course (cid : String) (s : Sect) : Sect :=
  { s with course_id := cid }

/-- The four per-course buckets kept in `course_sections[course_id]`
(app.py 242–247). -/
structure CourseSections where
  lec : List Sect
  dis : List Sect
  lab : List Sect
  qz : List Sect
deriving DecidableEq, Repr

/-- In `get_sections_by_type` (app.py 211–219) the source groups sections into a dict
keyed by their `type` in encounter order, so the list stored under one
type equals the order-preserving filter by that type. -/
def sections_of_type (t : String) (ss : List Sect) : List Sect :=
  ss.filter (fun s => s.type = t)

/-- Lines 235–247 of app.py for one course: tag every section with the
course id, then keep the `'Lec'`, `'Dis'`, `'Lab'` and `'Qz'` buckets
(`sections.get(t, [])`). -/
def classify_course (c : Course) : CourseSections :=
  let tagged := c.sections.map (tag_course c.published_course_id)
  { lec := sections_of_type "Lec" tagged
    dis := sections_of_type "Dis" tagged
    lab := sections_of_type "Lab" tagged
    qz := sections_of_type "Qz" tagged }

/-- Assignment `course_sections[course_id] = ...` on a Python dict:
an existing key keeps its position and gets the new value, a new key is
appended. -/
def dict_insert (k : String) (v : CourseSections) :
    List (String × CourseSections) → List (String × CourseSections)
  | [] => [(k, v)]
  | (k', v') :: rest =>
    if k' = k then (k, v) :: rest else (k', v') :: dict_insert k v rest

/-- The `course_sections` dict after the loop of app.py 233–253, as an
association list in dict iteration order. -/
def build_course_sections (courses_data : List Course) :
    List (String × CourseSections) :=
  courses_data.foldl
    (fun d c => dict_insert c.published_course_id (classify_course c) d) []

/-- The `lecture_combinations` list (app.py 252–253): each input course
appends its own (just classified) `'Lec'` bucket, duplicates included. -/
def lecture_lists (courses_data : List Course) : List (List Sect) :=
  courses_data.map (fun c => (classify_course c).lec)

/-- Model of `list(itertools.product(*lists))` (app.py 256): all tuples taking one
element per list, earlier lists varying slowest; `product()` of an empty
argument list is the single empty tuple. -/
def list_product : List (List Sect) → List (List Sect)
  | [] => [[]]
  | l :: ls => l.flatMap (fun x => (list_product ls).map (x :: ·))

/-- Model of `any(has_time_conflict(section, existing) for existing in sched)`
(app.py 308): Python's `any` stops at the first `True`, and a raised
exception (`none`) propagates. -/
def any_conflict (s : Sect) : List Sect → Option Bool
  | [] => some false
  | e :: rest =>
    match has_time_conflict s e with
    | none => none
    | some true => some true
    | some false => any_conflict s rest

/-- The inner `for section in random_sections` loop (app.py 306–312):
returns the first candidate that conflicts with nothing in the current
schedule (`some (some c)`), `some none` when every candidate conflicts
(`section_added` stays `False`), `none` when a conflict check raises. -/
def pick_section (sched : List Sect) : List Sect → Option (Option Sect)
  | [] => some none
  | c :: rest =>
    match any_conflict c sched with
    | none => none
    | some false => some (some c)
    | some true => pick_section sched rest

/-- The `for section_type in ['Dis', 'Lab', 'Qz']` loop for one course
(app.py 301–317), over the list `[dis, lab, qz]` of candidate buckets.
An empty bucket is skipped (`if sections[section_type]:`); a nonempty
bucket is sampled through the oracle (one `random.sample` call, one
counter tick) and the first non-conflicting candidate is appended; if no
candidate fits, `schedule_valid = False` and the `break` leaves the
remaining buckets of this course unprocessed.  Returns the extended
schedule, the new oracle counter, and the `schedule_valid` outcome for
this course. -/
def attach_for_course (oracle : Nat → List Sect → List Sect) :
    List (List Sect) → List Sect → Nat → Option (List Sect × Nat × Bool)
  | [], sched, ctr => some (sched, ctr, true)
  | bucket :: rest, sched, ctr =>
    if bucket = [] then attach_for_course oracle rest sched ctr
    else
      match pick_section sched (oracle ctr bucket) with
      | none => none
      | some none => some (sched, ctr + 1, false)
      | some (some c) => attach_for_course oracle rest (sched ++ [c]) (ctr + 1)

/-- The `for course_id, sections in course_sections.items()` loop of one
assembly attempt (app.py 294–317).  A course none of whose lectures is in
the combination is skipped (`if not course_lecture: continue`); otherwise
its secondary buckets are attached.  `schedule_valid` starts `True` and,
once `False`, stays `False` while later courses are still processed,
exactly as in the source. -/
def attempt_courses (oracle : Nat → List Sect → List Sect)
    (combo : List Sect) :
    List (String × CourseSections) → List Sect → Nat → Bool →
    Option (List Sect × Nat × Bool)
  | [], sched, ctr, valid => some (sched, ctr, valid)
  | (_, cs) :: rest, sched, ctr, valid =>
    match combo.find? (fun lec => cs.lec.contains lec) with
    | none => attempt_courses oracle combo rest sched ctr valid
    | some _ =>
      match attach_for_course oracle [cs.dis, cs.lab, cs.qz] sched ctr with
      | none => none
      | some (sched', ctr', ok) =>
        attempt_courses oracle combo rest sched' ctr' (valid && ok)

/-- One assembly attempt (one iteration of `for _ in range(3)`, app.py
289–317): start from `current_schedule = list(lecture_combo)` and run
the course loop. -/
def one_attempt (oracle : Nat → List Sect → List Sect)
    (items : List (String × CourseSections)) (combo : List Sect)
    (ctr : Nat) : Option (List Sect × Nat × Bool) :=
  attempt_courses oracle combo items combo ctr true

/-- Insert into a sorted list of naturals (ascending). -/
def insert_sorted (n : Nat) : List Nat → List Nat
  | [] => [n]
  | m :: rest => if n ≤ m then n :: m :: rest else m :: insert_sorted n rest

/-- Python `sorted`, on naturals. -/
def py_sorted (l : List Nat) : List Nat := l.foldr insert_sorted []

/-- Model of `tuple(sorted(section['id'] for section in current_schedule))`
(app.py 320): the deduplication key of a schedule. -/
def schedule_key (sched : List Sect) : List Nat :=
  py_sorted (sched.map (·.id))

/-- The inner `for lec2 in lecture_combo[i+1:]` loop (app.py 275–278):
stops at the first conflicting pair of its row; an exception propagates. -/
def row_conflict (l1 : Sect) : List Sect → Option Bool
  | [] => some false
  | l2 :: rest =>
    match has_time_conflict l1 l2 with
    | none => none
    | some true => some true
    | some false => row_conflict l1 rest

/-- The pairwise lecture check (app.py 272–278): the inner loop breaks at
the first conflict of a row, but the outer loop continues to later rows
even after a conflict was found, and `has_conflict` is the disjunction. -/
def lectures_conflict : List Sect → Option Bool
  | [] => some false
  | l :: rest =>
    match row_conflict l rest with
    | none => none
    | some b =>
      match lectures_conflict rest with
      | none => none
      | some b' => some (b || b')

/-- The mutable state of the `while` loop of app.py 263–327:
`all_valid_schedules`, the `seen_combinations` set (as the list of keys
in insertion order), the index into the combination list, and the oracle
counter numbering the `random.sample` calls made so far. -/
structure GenState where
  valid_schedules : List (List Sect)
  seen : List (List Nat)
  idx : Nat
  ctr : Nat
deriving DecidableEq, Repr

/-- Lines 319–323 of app.py: after a valid attempt, add the schedule
unless its key is already in `seen_combinations`. -/
def record_schedule (st : GenState) (ctr' : Nat) (sched : List Sect) :
    GenState :=
  let key := schedule_key sched
  if st.seen.contains key then { st with ctr := ctr' }
  else
    { st with
      valid_schedules := st.valid_schedules ++ [sched]
      seen := st.seen ++ [key]
      ctr := ctr' }

/-- The `for _ in range(3)` loop (app.py 285–326), `n` counting the
remaining variations: each round first re-checks the cap and breaks when
it is reached, then runs one assembly attempt; a valid non-duplicate
result is recorded. -/
def try_variations (oracle : Nat → List Sect → List Sect)
    (items : List (String × CourseSections)) (combo : List Sect)
    (maxS : Nat) : Nat → GenState → Option GenState
  | 0, st => some st
  | n + 1, st =>
    if maxS ≤ st.valid_schedules.length then some st
    else
      match one_attempt oracle items combo st.ctr with
      | none => none
      | some (sched, ctr', ok) =>
        try_variations oracle items combo maxS n
          (if ok then record_schedule st ctr' sched
           else { st with ctr := ctr' })

/-- The `while len(all_valid_schedules) < max_schedules` loop (app.py
263–327).  Each fuel unit is one iteration; `none` with positive fuel
models a raised exception (in particular the `IndexError` of line 265 on
an empty combination list), and `none` by fuel exhaustion models an
execution still running after `fuel` iterations — the loop itself never
tests exhaustion of the combination list and wraps the index around with
`% len(all_lecture_combinations)` (line 266). -/
def gen_loop (oracle : Nat → List Sect → List Sect)
    (items : List (String × CourseSections)) (combos : List (List Sect))
    (maxS : Nat) : Nat → GenState → Option (List (List Sect))
  | 0, _ => none
  | fuel + 1, st =>
    if maxS ≤ st.valid_schedules.length then some st.valid_schedules
    else
      match combos.get? st.idx with
      | none => none
      | some combo =>
        match lectures_conflict combo with
        | none => none
        | some true =>
          gen_loop oracle items combos maxS fuel
            { st with idx := (st.idx + 1) % combos.length }
        | some false =>
          match try_variations oracle items combo maxS 3
              { st with idx := (st.idx + 1) % combos.length } with
          | none => none
          | some st₂ => gen_loop oracle items combos maxS fuel st₂

/-- Model of `generate_diverse_schedules` (app.py 221–329).  `shuffle` models the
single `random.shuffle` of line 260 (a permutation of the combination
list), `oracle` the successive `random.sample` calls, `fuel` bounds the
number of `while`-iterations observed (the returned value is independent
of any fuel large enough to reach termination, and every fuel yields
`none` on a non-terminating run). -/
def generate_diverse_schedules (shuffle : List (List Sect) → List (List Sect))
    (oracle : Nat → List Sect → List Sect) (fuel : Nat)
    (courses_data : List Course) (max_schedules : Nat) :
    Option (List (List Sect)) :=
  let items := build_course_sections courses_data
  let all_combos := shuffle (list_product (lecture_lists courses_data))
  gen_loop oracle items all_combos max_schedules fuel
    { valid_schedules := [], seen := [], idx := 0, ctr := 0 }

/-- Truth of `some (some t)`: the field parses to a concrete time rather
than raising or yielding Python `None`. -/
def time_concrete (o : Option (Option Nat)) : Bool :=
  match o with
  | some (some _) => true
  | _ => false

/-- Well-formed times per the data model: a section whose `start_time` is
truthy has both `start_time` and `end_time` parsing to concrete times.
TBA sections (falsy `start_time`) are unrestricted. -/
def time_wf (s : Sect) : Bool :=
  !truthy s.start_time ||
    (time_concrete (parse_time s.start_time) && time_concrete (parse_time s.end_time))

/-- The deterministic stand-in for `random.sample`: every sampling call
returns the list in its given order. -/
def id_oracle : Nat → List Sect → List Sect := fun _ l => l

/-- Example lecture (course A): Mon/Wed 9:00–10:00, untagged. -/
def lec_A : Sect :=
  { id := 1, type := "Lec", day := some "MW", start_time := some "9:00",
    end_time := some "10:00", course_id := "" }

/-- The same lecture after the classifier tags it with its course id. -/
def lec_A' : Sect := { lec_A with course_id := "A" }

/-- Example lab (course A): Mon 9:30–10:30, overlapping `lec_A`. -/
def lab_A : Sect :=
  { id := 3, type := "Lab", day := some "M", start_time := some "9:30",
    end_time := some "10:30", course_id := "" }

/-- The same lab after tagging. -/
def lab_A' : Sect := { lab_A with course_id := "A" }

/-- Example discussion (course B): Fri 9:00–10:00. -/
def dis_B : Sect :=
  { id := 5, type := "Dis", day := some "F", start_time := some "9:00",
    end_time := some "10:00", course_id := "" }

/-- Example course A with a single lecture and nothing else. -/
def course_A : Course := { published_course_id := "A", sections := [lec_A] }

/-- Example course A with one lecture and one lab that conflicts with it. -/
def course_A2 : Course :=
  { published_course_id := "A", sections := [lec_A, lab_A] }

/-- Example course B with a discussion but zero lecture sections. -/
def course_B_nolec : Course :=
  { published_course_id := "B", sections := [dis_B] }

/-- A lecture with the undefined day symbol `"S"`. -/
def bad_day_1 : Sect :=
  { id := 7, type := "Lec", day := some "S", start_time := some "9:00",
    end_time := some "10:00", course_id := "" }

/-- A second lecture with the undefined day symbol `"S"`. -/
def bad_day_2 : Sect :=
  { id := 8, type := "Lec", day := some "S", start_time := some "10:30",
    end_time := some "11:30", course_id := "" }

/-- A lecture with an unparseable time string `"9am"`. -/
def bad_time_1 : Sect :=
  { id := 9, type := "Lec", day := some "M", start_time := some "9am",
    end_time := some "10am", course_id := "" }

/-- A well-formed lecture sharing a day with `bad_time_1`. -/
def bad_time_2 : Sect :=
  { id := 10, type := "Lec", day := some "M", start_time := some "9:00",
    end_time := some "10:00", course_id := "" }

/-- Course C holding the bad-day lecture `bad_day_1`. -/
def course_C_badday : Course :=
  { published_course_id := "C", sections := [bad_day_1] }

/-- Course D holding the bad-day lecture `bad_day_2`. -/
def course_D_badday : Course :=
  { published_course_id := "D", sections := [bad_day_2] }

/-- Conflict-freedom of an ordered pair as established during assembly:
the conflict check actually performed by the source on one of the two
orientations returned `False`. -/
def no_conf (a b : Sect) : Prop :=
  has_time_conflict a b = some false ∨ has_time_conflict b a = some false

/-- Full pairwise conflict-freedom: one orientation evaluates to `False`
and neither orientation evaluates to `True`. -/
def pair_conflict_free (a b : Sect) : Prop :=
  (has_time_conflict a b = some false ∨ has_time_conflict b a = some false) ∧
    has_time_conflict a b ≠ some true ∧ has_time_conflict b a ≠ some true

/-- Shape of the secondary sections one course contributes to a
schedule: at most one discussion, then at most one lab, then at most one
quiz, each drawn from that course's buckets — the `['Dis', 'Lab', 'Qz']`
attachment order of app.py 301. -/
def chunk_ok (cs : CourseSections) (chunk : List Sect) : Prop :=
  ∃ od ol oq : Option Sect,
    chunk = od.toList ++ ol.toList ++ oq.toList ∧
    (∀ s, od = some s → s ∈ cs.dis) ∧
    (∀ s, ol = some s → s ∈ cs.lab) ∧
    (∀ s, oq = some s → s ∈ cs.qz)

/-- Shape of an assembled schedule: the lecture combination first, then
one chunk of secondary sections per course of `course_sections`, chunks
in dict order and each chunk in Dis/Lab/Qz order. -/
def assembled_shape (items : List (String × CourseSections))
    (combo sched : List Sect) : Prop :=
  ∃ chunks : List (List Sect),
    chunks.length = items.length ∧
    sched = combo ++ chunks.flatten ∧
    ∀ (i : Nat) (h1 : i < chunks.length) (h2 : i < items.length),
      chunk_ok (items.get ⟨i, h2⟩).2 (chunks.get ⟨i, h1⟩)

/-- The loop state reached after the first `while`-iteration on the
input `[course_A]` with `max_schedules = 2`: the single possible
schedule has been found, its key is in `seen_combinations`, and the
wrapped-around index points back at the only combination. -/
def st1_A : GenState :=
  { valid_schedules := [[lec_A']], seen := [[1]], idx := 0, ctr := 0 }

/-! ## Lemmas about the conflict predicate -/

theorem time_concrete_iff {o : Option (Option Nat)} :
    time_concrete o = true ↔ ∃ t, o = some (some t) := by
  rcases o with _ | o
  · simp [time_concrete]
  · rcases o with _ | t
    · simp [time_concrete]
    · simp [time_concrete]

theorem common_days_symm (d1 d2 : List Weekday) :
    (d1.filter (fun d => d2.contains d) = []) ↔
      (d2.filter (fun d => d1.contains d) = []) := by
  simp only [List.filter_eq_nil_iff]
  constructor
  · intro h a ha hb
    exact h a (by simpa using hb) (by simpa using ha)
  · intro h a ha hb
    exact h a (by simpa using hb) (by simpa using ha)

theorem truthy_of_concrete {x : Option String} {t : Nat}
    (h : parse_time x = some (some t)) : truthy x = true := by
  rcases x with _ | s
  · simp [parse_time] at h
  · rw [parse_time] at h
    by_cases hs : s = "" ∨ s = "TBA"
    · rw [if_pos hs] at h
      exact absurd h (by simp)
    · have : s ≠ "" := fun h' => hs (Or.inl h')
      simp [truthy, this]

/-- C8: the time-conflict predicate is symmetric on sections that are
well-formed per the data model (a truthy `start_time` comes with
concretely parseable `start_time` and `end_time`; on such sections no
`TypeError` can arise from a `None` endpoint, which is the only source
of asymmetry in the source's short-circuit `and`). -/
theorem c8_conflict_symm (a b : Sect)
    (ha : time_wf a = true) (hb : time_wf b = true) :
    has_time_conflict a b = has_time_conflict b a := by
  unfold has_time_conflict
  cases hta : truthy a.start_time with
  | false => simp [hta]
  | true =>
    cases htb : truthy b.start_time with
    | false => simp [hta, htb]
    | true =>
      simp only [hta, htb, Bool.not_true, Bool.or_self, Bool.false_or, if_false]
      simp only [time_wf, hta, htb, Bool.not_true, Bool.false_or,
        Bool.and_eq_true] at ha hb
      obtain ⟨tas, has⟩ := time_concrete_iff.mp ha.1
      obtain ⟨tae, hae⟩ := time_concrete_iff.mp ha.2
      obtain ⟨tbs, hbs⟩ := time_concrete_iff.mp hb.1
      obtain ⟨tbe, hbe⟩ := time_concrete_iff.mp hb.2
      rcases hda : parse_days a.day with _ | da <;>
        rcases hdb : parse_days b.day with _ | db <;> simp only [hda, hdb]
      by_cases hf : List.filter (fun d => db.contains d) da = []
      · rw [if_pos hf, if_pos ((common_days_symm da db).mp hf)]
      · rw [if_neg hf, if_neg (fun h => hf ((common_days_symm da db).mpr h))]
        rw [has, hae, hbs, hbe]
        by_cases h1 : tas ≤ tbe <;> by_cases h2 : tbs ≤ tae <;>
          simp [optLe, h1, h2]

/-- Witness for C8 at concrete sections. -/
theorem c8_conflict_symm_witness :
    time_wf lec_A = true ∧ time_wf lab_A = true ∧
      has_time_conflict lec_A lab_A = has_time_conflict lab_A lec_A :=
  ⟨by decide, by decide, c8_conflict_symm lec_A lab_A (by decide) (by decide)⟩

/-- C9: two sections sharing a meeting day, with concrete well-ordered
times, conflict as soon as the first one's `end_time` equals the second
one's `start_time` — the inclusive-boundary policy of app.py line 180. -/
theorem c9_boundary_touch (a b : Sect) (da db : List Weekday)
    (tas tae tbs tbe : Nat)
    (hda : parse_days a.day = some da) (hdb : parse_days b.day = some db)
    (hcommon : List.filter (fun d => db.contains d) da ≠ [])
    (h1 : parse_time a.start_time = some (some tas))
    (h2 : parse_time a.end_time = some (some tae))
    (h3 : parse_time b.start_time = some (some tbs))
    (h4 : parse_time b.end_time = some (some tbe))
    (hwa : tas ≤ tae) (hwb : tbs ≤ tbe)
    (htouch : tae = tbs) :
    has_time_conflict a b = some true := by
  have hta : truthy a.start_time = true := truthy_of_concrete h1
  have htb : truthy b.start_time = true := truthy_of_concrete h3
  rw [has_time_conflict]
  simp only [hta, htb, Bool.not_true, Bool.or_self, Bool.false_or, if_false,
    hda, hdb]
  rw [if_neg hcommon, h1, h2, h3, h4]
  have e1 : tas ≤ tbe := by omega
  have e2 : tbs ≤ tae := by omega
  simp [optLe, e1, e2]

/-- Witness for C9: `lec_A` ends at 10:00 exactly when `bad_time_2`-style
section `touch_b` starts, on a shared Monday. -/
theorem c9_boundary_touch_witness :
    has_time_conflict lec_A
      { id := 11, type := "Lec", day := some "M", start_time := some "10:00",
        end_time := some "11:00", course_id := "" } = some true :=
  c9_boundary_touch lec_A
    { id := 11, type := "Lec", day := some "M", start_time := some "10:00",
      end_time := some "11:00", course_id := "" }
    [.monday, .wednesday] [.monday] 540 600 600 660
    (by decide) (by decide) (by decide) (by decide) (by decide) (by decide)
    (by decide) (by decide) (by decide) rfl

/-- C7: malformed day or time data is not rejected at data-ingestion
time; it raises inside conflict evaluation.  `parse_days` raises
(`none`) on the unknown symbol `"S"`, `parse_time` raises on `"9am"`,
`has_time_conflict` therefore raises on sections carrying such data, and
the whole generation call propagates that exception (`none`) instead of
any ingestion-time `InvalidInput`: the embedded source contains no
validation step between ingestion and conflict evaluation at all. -/
theorem c7_malformed_raises_in_conflict_eval :
    parse_days (some "S") = none ∧
    parse_time (some "9am") = none ∧
    has_time_conflict bad_day_1 bad_day_2 = none ∧
    has_time_conflict bad_time_1 bad_time_2 = none ∧
    generate_diverse_schedules id id_oracle 1
      [course_C_badday, course_D_badday] 15 = none := by
  refine ⟨by decide, by decide, by decide, by decide, by decide⟩

/-! ## The secondary-attachment policy (C2) -/

theorem pick_section_none_of_all {sched : List Sect} {cands : List Sect}
    (h : ∀ s ∈ cands, any_conflict s sched = some true) :
    pick_section sched cands = some none := by
  induction cands with
  | nil => rfl
  | cons c rest ih =>
    rw [pick_section, h c (List.mem_cons_self c rest)]
    exact ih fun s hs => h s (List.mem_cons_of_mem c hs)

/-- Counterexample to C2 as stated: course A2 has one lecture, no
discussion, no quiz, and a single lab overlapping the lecture.  The claim
says a failed Lab category is skipped best-effort and the attempt can
still succeed; in the source the attempt comes back with
`schedule_valid = False` (third conjunct) and the three variations of the
combination record no schedule at all (fourth conjunct). -/
theorem c2_counterexample :
    build_course_sections [course_A2] =
      [("A", { lec := [lec_A'], dis := [], lab := [lab_A'], qz := [] })] ∧
    any_conflict lab_A' [lec_A'] = some true ∧
    one_attempt id_oracle (build_course_sections [course_A2]) [lec_A'] 0 =
      some ([lec_A'], 1, false) ∧
    try_variations id_oracle (build_course_sections [course_A2]) [lec_A'] 15 3
      { valid_schedules := [], seen := [], idx := 0, ctr := 0 } =
      some { valid_schedules := [], seen := [], idx := 0, ctr := 3 } := by
  refine ⟨by decide, by decide, by decide, by decide⟩

/-- C2 amended: the category policy is uniform, not asymmetric.  Whatever
its position among the secondary categories (`pre` is the already
processed prefix of buckets, e.g. `[['Dis' bucket]]` when the failing
category is Lab), a nonempty bucket none of whose sampled candidates is
conflict-free ends the course's attachment with `schedule_valid = False`
and skips the remaining buckets; and once `schedule_valid` is `False`
the whole attempt stays invalid through the remaining courses, so no
schedule is produced from that attempt — for Discussion, Lab and Quiz
alike. -/
theorem c2_amended :
    (∀ (oracle : Nat → List Sect → List Sect) (pre post : List (List Sect))
       (bucket : List Sect) (sched sched₀ : List Sect) (ctr ctr₀ : Nat),
       attach_for_course oracle pre sched ctr = some (sched₀, ctr₀, true) →
       bucket ≠ [] →
       (∀ s ∈ oracle ctr₀ bucket, any_conflict s sched₀ = some true) →
       attach_for_course oracle (pre ++ bucket :: post) sched ctr =
         some (sched₀, ctr₀ + 1, false)) ∧
    (∀ (oracle : Nat → List Sect → List Sect) (combo : List Sect)
       (items : List (String × CourseSections)) (sched : List Sect)
       (ctr : Nat) (out : List Sect × Nat × Bool),
       attempt_courses oracle combo items sched ctr false = some out →
       out.2.2 = false) := by
  constructor
  · intro oracle pre
    induction pre with
    | nil =>
      intro post bucket sched sched₀ ctr ctr₀ hpre hne hall
      simp only [attach_for_course, Option.some.injEq, Prod.mk.injEq] at hpre
      obtain ⟨rfl, rfl, -⟩ := hpre
      rw [List.nil_append, attach_for_course, if_neg hne,
        pick_section_none_of_all hall]
    | cons b pre ih =>
      intro post bucket sched sched₀ ctr ctr₀ hpre hne hall
      rw [attach_for_course] at hpre
      rw [List.cons_append, attach_for_course]
      by_cases hb : b = []
      · rw [if_pos hb] at hpre ⊢
        exact ih _ _ _ _ _ _ hpre hne hall
      · rw [if_neg hb] at hpre ⊢
        cases hps : pick_section sched (oracle ctr b) with
        | none =>
          simp only [hps] at hpre
          exact Option.noConfusion hpre
        | some o =>
          simp only [hps] at hpre ⊢
          cases o with
          | none => simp at hpre
          | some c => exact ih _ _ _ _ _ _ hpre hne hall
  · intro oracle combo items
    induction items with
    | nil =>
      intro sched ctr out h
      rw [attempt_courses] at h
      rw [← Option.some.inj h]
    | cons p items ih =>
      obtain ⟨cid, cs⟩ := p
      intro sched ctr out h
      rw [attempt_courses] at h
      cases hf : combo.find? (fun lec => cs.lec.contains lec) with
      | none =>
        simp only [hf] at h
        exact ih _ _ _ h
      | some lec =>
        cases ha : attach_for_course oracle [cs.dis, cs.lab, cs.qz] sched ctr with
        | none =>
          simp only [hf, ha] at h
          exact Option.noConfusion h
        | some r =>
          obtain ⟨s', c', ok⟩ := r
          simp only [hf, ha, Bool.false_and] at h
          exact ih _ _ _ h

/-- Witness for C2's amended theorem at the concrete lab-failure input. -/
theorem c2_amended_witness :
    attach_for_course id_oracle [[], [lab_A'], []] [lec_A'] 0 =
      some ([lec_A'], 0 + 1, false) ∧
    (([lec_A'], 1, false) : List Sect × Nat × Bool).2.2 = false :=
  ⟨c2_amended.1 id_oracle [[]] [[]] [lab_A'] [lec_A'] [lec_A'] 0 0
      (by decide) (by decide) (by decide),
   c2_amended.2 id_oracle [lec_A'] (build_course_sections [course_A2])
      [lec_A'] 0 ([lec_A'], 1, false) (by decide)⟩

/-! ## The lecture cross-product (C3) -/

theorem product_nil_of_mem {ls : List (List Sect)}
    (h : ([] : List Sect) ∈ ls) : list_product ls = [] := by
  induction ls with
  | nil => cases h
  | cons l ls ih =>
    rcases List.mem_cons.mp h with h' | h'
    · rw [list_product, ← h']
      rfl
    · rw [list_product, ih h']
      simp

/-- Counterexample to C3 as stated: with course A (one lecture) and
course B (zero lectures), the candidate combination space is empty —
it does not equal the cross-product of the remaining courses' lecture
lists, and the generation call fails (the `IndexError` of app.py 265 on
the empty shuffled list) instead of silently dropping course B. -/
theorem c3_counterexample :
    list_product (lecture_lists [course_A, course_B_nolec]) = [] ∧
    list_product (lecture_lists [course_A]) = [[lec_A']] ∧
    list_product (lecture_lists [course_A, course_B_nolec]) ≠
      list_product (lecture_lists [course_A]) ∧
    generate_diverse_schedules id id_oracle 1 [course_A, course_B_nolec] 15 =
      none := by
  refine ⟨by decide, by decide, by decide, by decide⟩

/-- C3 amended: a course with zero Lecture sections contributes an empty
factor to `itertools.product`, so the whole candidate combination space
is empty and `generate_diverse_schedules` raises (the line-265 index into
the empty list) rather than excluding that course from the product. -/
theorem c3_amended (shuffle : List (List Sect) → List (List Sect))
    (oracle : Nat → List Sect → List Sect) (fuel : Nat)
    (cd : List Course) (maxS : Nat) (c : Course)
    (hsh : ∀ l, (shuffle l).Perm l)
    (hc : c ∈ cd) (hlec : (classify_course c).lec = [])
    (hfuel : 0 < fuel) (hmax : 0 < maxS) :
    generate_diverse_schedules shuffle oracle fuel cd maxS = none := by
  have hmem : ([] : List Sect) ∈ lecture_lists cd := by
    have h := List.mem_map_of_mem (fun c => (classify_course c).lec) hc
    simp only [hlec] at h
    exact h
  have hprod : list_product (lecture_lists cd) = [] := product_nil_of_mem hmem
  have hcombos : shuffle (list_product (lecture_lists cd)) = [] := by
    have hp := hsh (list_product (lecture_lists cd))
    nth_rewrite 2 [hprod] at hp
    exact hp.eq_nil
  obtain ⟨f, rfl⟩ : ∃ f, fuel = f + 1 := ⟨fuel - 1, by omega⟩
  unfold generate_diverse_schedules
  rw [hcombos, gen_loop]
  simp [Nat.not_le.mpr hmax]

/-- Witness for C3's amended theorem at the concrete two-course input. -/
theorem c3_amended_witness :
    generate_diverse_schedules id id_oracle 1 [course_A, course_B_nolec] 15 =
      none :=
  c3_amended id id_oracle 1 [course_A, course_B_nolec] 15 course_B_nolec
    (fun l => List.Perm.refl l) (by decide) (by decide) (by decide) (by decide)

/-! ## Facts established by the source's conflict checks -/

theorem row_conflict_false {l1 : Sect} {rest : List Sect}
    (h : row_conflict l1 rest = some false) :
    ∀ x ∈ rest, has_time_conflict l1 x = some false := by
  induction rest with
  | nil => intro x hx; cases hx
  | cons y rest ih =>
    rw [row_conflict] at h
    cases hc : has_time_conflict l1 y with
    | none => simp only [hc] at h; exact Option.noConfusion h
    | some b =>
      cases b with
      | true => simp only [hc] at h; simp at h
      | false =>
        simp only [hc] at h
        intro x hx
        rcases List.mem_cons.mp hx with rfl | hx'
        · exact hc
        · exact ih h x hx'

theorem lectures_conflict_false {combo : List Sect}
    (h : lectures_conflict combo = some false) :
    combo.Pairwise (fun a b => has_time_conflict a b = some false) := by
  induction combo with
  | nil => exact List.Pairwise.nil
  | cons l rest ih =>
    rw [lectures_conflict] at h
    cases hr : row_conflict l rest with
    | none => simp only [hr] at h; exact Option.noConfusion h
    | some b =>
      cases hl : lectures_conflict rest with
      | none => simp only [hr, hl] at h; exact Option.noConfusion h
      | some b' =>
        simp only [hr, hl, Option.some.injEq] at h
        cases b with
        | true => simp at h
        | false =>
          cases b' with
          | true => simp at h
          | false => exact List.Pairwise.cons (row_conflict_false hr) (ih hl)

theorem any_conflict_false {s : Sect} {sched : List Sect}
    (h : any_conflict s sched = some false) :
    ∀ e ∈ sched, has_time_conflict s e = some false := by
  induction sched with
  | nil => intro e he; cases he
  | cons y rest ih =>
    rw [any_conflict] at h
    cases hc : has_time_conflict s y with
    | none => simp only [hc] at h; exact Option.noConfusion h
    | some b =>
      cases b with
      | true => simp only [hc] at h; simp at h
      | false =>
        simp only [hc] at h
        intro e he
        rcases List.mem_cons.mp he with rfl | he'
        · exact hc
        · exact ih h e he'

theorem pick_section_mem {sched cands : List Sect} {c : Sect}
    (h : pick_section sched cands = some (some c)) :
    any_conflict c sched = some false ∧ c ∈ cands := by
  induction cands with
  | nil => simp [pick_section] at h
  | cons d rest ih =>
    rw [pick_section] at h
    cases hd : any_conflict d sched with
    | none => simp only [hd] at h; exact Option.noConfusion h
    | some b =>
      cases b with
      | false =>
        simp only [hd, Option.some.injEq] at h
        subst h
        exact ⟨hd, List.mem_cons_self _ _⟩
      | true =>
        simp only [hd] at h
        obtain ⟨h1, h2⟩ := ih h
        exact ⟨h1, List.mem_cons_of_mem d h2⟩

theorem false_asym {a b : Sect} (h : has_time_conflict a b = some false) :
    has_time_conflict b a ≠ some true := by
  intro h'
  rw [has_time_conflict] at h h'
  cases hta : truthy a.start_time with
  | false => simp [hta] at h'
  | true =>
    cases htb : truthy b.start_time with
    | false => simp [htb] at h'
    | true =>
      simp only [hta, htb, Bool.not_true, Bool.or_self, Bool.false_or,
        if_false] at h h'
      rcases hda : parse_days a.day with _ | da <;>
        rcases hdb : parse_days b.day with _ | db <;>
          simp only [hda, hdb] at h h' <;>
          try exact Option.noConfusion h
      by_cases hf : List.filter (fun d => db.contains d) da = []
      · rw [if_pos ((common_days_symm da db).mp hf)] at h'
        simp at h'
      · have hf' : ¬ List.filter (fun d => da.contains d) db = [] :=
          fun hx => hf ((common_days_symm da db).mpr hx)
        rw [if_neg hf] at h
        rw [if_neg hf'] at h'
        rcases h1 : parse_time a.start_time with _ | t1s
        · simp [h1] at h
        rcases h2 : parse_time a.end_time with _ | t1e
        · simp [h1, h2] at h
        rcases h3 : parse_time b.start_time with _ | t2s
        · simp [h1, h2, h3] at h
        rcases h4 : parse_time b.end_time with _ | t2e
        · simp [h1, h2, h3, h4] at h
        simp only [h1, h2, h3, h4] at h h'
        rcases o1 : optLe t1s t2e with _ | b1
        · simp only [o1] at h
          exact Option.noConfusion h
        · rcases o2 : optLe t2s t1e with _ | b2
          · cases b1
            · simp only [o2] at h'
              exact Option.noConfusion h'
            · simp only [o1, o2] at h
              exact Option.noConfusion h
          · cases b1
            · cases b2
              · simp only [o2] at h'
                exact absurd h' (by simp)
              · simp only [o2, o1] at h'
                exact absurd h' (by simp)
            · cases b2
              · simp only [o2] at h'
                exact absurd h' (by simp)
              · simp only [o1, o2] at h
                exact absurd h (by simp)
/-! ## Invariants of the generation loop -/

theorem attach_no_conf {oracle : Nat → List Sect → List Sect}
    {buckets : List (List Sect)} {sched : List Sect} {ctr : Nat}
    {out : List Sect × Nat × Bool}
    (h : attach_for_course oracle buckets sched ctr = some out)
    (hp : sched.Pairwise no_conf) : out.1.Pairwise no_conf := by
  induction buckets generalizing sched ctr with
  | nil =>
    obtain rfl : out = (sched, ctr, true) := (Option.some.inj h).symm
    exact hp
  | cons b rest ih =>
    rw [attach_for_course] at h
    by_cases hb : b = []
    · rw [if_pos hb] at h
      exact ih h hp
    · rw [if_neg hb] at h
      cases hps : pick_section sched (oracle ctr b) with
      | none => simp only [hps] at h; exact Option.noConfusion h
      | some o =>
        simp only [hps] at h
        cases o with
        | none =>
          obtain rfl : out = (sched, ctr + 1, false) := (Option.some.inj h).symm
          exact hp
        | some c =>
          apply ih h
          have hall := any_conflict_false (pick_section_mem hps).1
          rw [List.pairwise_append]
          refine ⟨hp, List.pairwise_singleton _ _, ?_⟩
          intro a ha b' hb'
          rw [List.mem_singleton] at hb'
          subst hb'
          exact Or.inr (hall a ha)

theorem attempt_no_conf {oracle : Nat → List Sect → List Sect}
    {combo : List Sect} {items : List (String × CourseSections)}
    {sched : List Sect} {ctr : Nat} {valid : Bool}
    {out : List Sect × Nat × Bool}
    (h : attempt_courses oracle combo items sched ctr valid = some out)
    (hp : sched.Pairwise no_conf) : out.1.Pairwise no_conf := by
  induction items generalizing sched ctr valid with
  | nil =>
    obtain rfl : out = (sched, ctr, valid) := (Option.some.inj h).symm
    exact hp
  | cons p items ih =>
    obtain ⟨cid, cs⟩ := p
    rw [attempt_courses] at h
    cases hf : combo.find? (fun lec => cs.lec.contains lec) with
    | none =>
      simp only [hf] at h
      exact ih h hp
    | some lec =>
      cases ha : attach_for_course oracle [cs.dis, cs.lab, cs.qz] sched ctr with
      | none => simp only [hf, ha] at h; exact Option.noConfusion h
      | some r =>
        obtain ⟨s', c', ok⟩ := r
        simp only [hf, ha] at h
        exact ih h (attach_no_conf ha hp)

theorem one_attempt_no_conf {oracle : Nat → List Sect → List Sect}
    {items : List (String × CourseSections)} {combo : List Sect} {ctr : Nat}
    {out : List Sect × Nat × Bool}
    (hlc : lectures_conflict combo = some false)
    (h : one_attempt oracle items combo ctr = some out) :
    out.1.Pairwise no_conf :=
  attempt_no_conf h
    ((lectures_conflict_false hlc).imp fun hab => Or.inl hab)

theorem try_variations_inv
    (P : List (List Sect) → List (List Nat) → Prop)
    (Q : List Sect → Prop)
    {oracle : Nat → List Sect → List Sect}
    {items : List (String × CourseSections)} {combo : List Sect} {maxS : Nat}
    (hQ : ∀ ctr out, one_attempt oracle items combo ctr = some out →
      out.2.2 = true → Q out.1)
    (hP : ∀ v sn sched, P v sn → Q sched → v.length < maxS →
      ¬ sn.contains (schedule_key sched) = true →
      P (v ++ [sched]) (sn ++ [schedule_key sched])) :
    ∀ (n : Nat) (st st' : GenState),
      try_variations oracle items combo maxS n st = some st' →
      P st.valid_schedules st.seen → P st'.valid_schedules st'.seen := by
  intro n
  induction n with
  | zero =>
    intro st st' h hp
    obtain rfl : st = st' := Option.some.inj h
    exact hp
  | succ n ih =>
    intro st st' h hp
    rw [try_variations] at h
    by_cases hcap : maxS ≤ st.valid_schedules.length
    · rw [if_pos hcap] at h
      obtain rfl : st = st' := Option.some.inj h
      exact hp
    · rw [if_neg hcap] at h
      cases hat : one_attempt oracle items combo st.ctr with
      | none => simp only [hat] at h; exact Option.noConfusion h
      | some out =>
        obtain ⟨sched, ctr', ok⟩ := out
        simp only [hat] at h
        cases ok with
        | false => exact ih _ _ h hp
        | true =>
          apply ih _ _ h
          rw [record_schedule]
          by_cases hseen : st.seen.contains (schedule_key sched) = true
          · rw [if_pos hseen]
            exact hp
          · rw [if_neg hseen]
            exact hP _ _ _ hp (hQ _ _ hat rfl) (Nat.lt_of_not_le hcap) hseen

theorem gen_loop_inv
    (P : List (List Sect) → List (List Nat) → Prop)
    (Q : List Sect → Prop)
    {oracle : Nat → List Sect → List Sect}
    {items : List (String × CourseSections)} {combos : List (List Sect)}
    {maxS : Nat}
    (hQ : ∀ combo, combo ∈ combos → lectures_conflict combo = some false →
      ∀ ctr out, one_attempt oracle items combo ctr = some out →
        out.2.2 = true → Q out.1)
    (hP : ∀ v sn sched, P v sn → Q sched → v.length < maxS →
      ¬ sn.contains (schedule_key sched) = true →
      P (v ++ [sched]) (sn ++ [schedule_key sched])) :
    ∀ (fuel : Nat) (st : GenState) (res : List (List Sect)),
      gen_loop oracle items combos maxS fuel st = some res →
      P st.valid_schedules st.seen → ∃ sn, P res sn := by
  intro fuel
  induction fuel with
  | zero => intro st res h; exact Option.noConfusion h
  | succ fuel ih =>
    intro st res h hp
    rw [gen_loop] at h
    by_cases hcap : maxS ≤ st.valid_schedules.length
    · rw [if_pos hcap] at h
      obtain rfl : st.valid_schedules = res := Option.some.inj h
      exact ⟨st.seen, hp⟩
    · rw [if_neg hcap] at h
      cases hg : combos.get? st.idx with
      | none => simp only [hg] at h; exact Option.noConfusion h
      | some combo =>
        have hmem : combo ∈ combos := List.get?_mem hg
        cases hlc : lectures_conflict combo with
        | none => simp only [hg, hlc] at h; exact Option.noConfusion h
        | some b =>
          cases b with
          | true =>
            simp only [hg, hlc] at h
            exact ih _ _ h hp
          | false =>
            simp only [hg, hlc] at h
            cases htv : try_variations oracle items combo maxS 3
                { st with idx := (st.idx + 1) % combos.length } with
            | none => rw [htv] at h; exact Option.noConfusion h
            | some st₂ =>
              rw [htv] at h
              exact ih _ _ h
                (try_variations_inv P Q (hQ combo hmem hlc) hP 3 _ _ htv hp)
/-- C4: every schedule in a list returned by `generate_diverse_schedules`
is internally conflict-free: for each pair of distinct sections, the
orientation of the pair that the source actually checked evaluates to
`False`, and neither orientation evaluates to `True`. -/
theorem c4_schedules_conflict_free
    (shuffle : List (List Sect) → List (List Sect))
    (oracle : Nat → List Sect → List Sect) (fuel : Nat)
    (cd : List Course) (maxS : Nat) (res : List (List Sect))
    (h : generate_diverse_schedules shuffle oracle fuel cd maxS = some res) :
    ∀ sched ∈ res, sched.Pairwise pair_conflict_free := by
  unfold generate_diverse_schedules at h
  obtain ⟨sn, hP⟩ := gen_loop_inv
    (P := fun v _ => ∀ s ∈ v, s.Pairwise no_conf)
    (Q := fun s => s.Pairwise no_conf)
    (fun _ _ hlc _ _ hat _ => one_attempt_no_conf hlc hat)
    (fun v sn sched hv hq _ _ s hs => by
      rcases List.mem_append.mp hs with h' | h'
      · exact hv s h'
      · rw [List.mem_singleton] at h'
        exact h' ▸ hq)
    fuel _ res h (fun s hs => absurd hs (List.not_mem_nil s))
  intro sched hs
  refine (hP sched hs).imp ?_
  intro a b hab
  rcases hab with hf | hf
  · exact ⟨Or.inl hf, by rw [hf]; simp, false_asym hf⟩
  · exact ⟨Or.inr hf, false_asym hf, by rw [hf]; simp⟩

/-- Witness for C4 on a concrete successful generation. -/
theorem c4_schedules_conflict_free_witness :
    List.Pairwise pair_conflict_free [lec_A'] :=
  c4_schedules_conflict_free id id_oracle 2 [course_A] 1 [[lec_A']]
    (by decide) [lec_A'] (by simp)

/-- C5: whenever `generate_diverse_schedules` returns, it returns at most
`max_schedules` schedules; and the loop stops the moment the result set
has reached the cap — from any state whose result list has already
reached `max_schedules`, the next iteration returns it unchanged. -/
theorem c5_cap_respected (shuffle : List (List Sect) → List (List Sect))
    (oracle : Nat → List Sect → List Sect) (cd : List Course) (maxS : Nat) :
    (∀ (st : GenState) (f : Nat), 0 < f → maxS ≤ st.valid_schedules.length →
       gen_loop oracle (build_course_sections cd)
         (shuffle (list_product (lecture_lists cd))) maxS f st =
         some st.valid_schedules) ∧
    (∀ (fuel : Nat) (res : List (List Sect)),
       generate_diverse_schedules shuffle oracle fuel cd maxS = some res →
       res.length ≤ maxS) := by
  constructor
  · intro st f hf hcap
    obtain ⟨f', rfl⟩ : ∃ f', f = f' + 1 := ⟨f - 1, by omega⟩
    rw [gen_loop, if_pos hcap]
  · intro fuel res h
    unfold generate_diverse_schedules at h
    obtain ⟨sn, hP⟩ := gen_loop_inv
      (P := fun v _ => v.length ≤ maxS) (Q := fun _ => True)
      (fun _ _ _ _ _ _ _ => trivial)
      (fun v sn sched hv _ hlt _ => by
        show (v ++ [sched]).length ≤ maxS
        rw [List.length_append]
        simpa using hlt)
      fuel _ res h (by simp)
    exact hP

/-- Witness for C5: the early-stop branch at a full state and the cap on
a concrete returned result. -/
theorem c5_cap_respected_witness :
    gen_loop id_oracle (build_course_sections [course_A])
      (id (list_product (lecture_lists [course_A]))) 1 1 st1_A =
      some st1_A.valid_schedules ∧
    ([[lec_A']] : List (List Sect)).length ≤ 1 :=
  ⟨(c5_cap_respected id id_oracle [course_A] 1).1 st1_A 1 (by decide)
      (by decide),
   (c5_cap_respected id id_oracle [course_A] 1).2 2 [[lec_A']] (by decide)⟩

/-- C6: no two schedules returned by one `generate_diverse_schedules`
call share the deduplication key `tuple(sorted(section ids))`. -/
theorem c6_no_duplicate_keys (shuffle : List (List Sect) → List (List Sect))
    (oracle : Nat → List Sect → List Sect) (fuel : Nat)
    (cd : List Course) (maxS : Nat) (res : List (List Sect))
    (h : generate_diverse_schedules shuffle oracle fuel cd maxS = some res) :
    (res.map schedule_key).Nodup := by
  unfold generate_diverse_schedules at h
  obtain ⟨sn, hP⟩ := gen_loop_inv
    (P := fun v sn => (v.map schedule_key).Nodup ∧
      ∀ k ∈ v.map schedule_key, k ∈ sn)
    (Q := fun _ => True)
    (fun _ _ _ _ _ _ _ => trivial)
    (fun v sn sched hv _ _ hseen => by
      have hnot : schedule_key sched ∉ sn := by simpa using hseen
      constructor
      · rw [List.map_append]
        refine List.Nodup.append hv.1 (by simp) ?_
        intro k hk hk'
        simp only [List.map_cons, List.map_nil, List.mem_singleton] at hk'
        subst hk'
        exact hnot (hv.2 _ hk)
      · intro k hk
        rw [List.map_append, List.mem_append] at hk
        rcases hk with hk | hk
        · exact List.mem_append_left _ (hv.2 _ hk)
        · simp only [List.map_cons, List.map_nil, List.mem_singleton] at hk
          subst hk
          exact List.mem_append_right _ (by simp))
    fuel _ res h (by simp)
  exact hP.1

/-- Witness for C6 on a concrete successful generation. -/
theorem c6_no_duplicate_keys_witness :
    (([[lec_A']] : List (List Sect)).map schedule_key).Nodup :=
  c6_no_duplicate_keys id id_oracle 2 [course_A] 1 [[lec_A']] (by decide)
/-! ## Non-termination of the combination loop (C1) -/

theorem gen_loop_st1_step (f : Nat) :
    gen_loop id_oracle (build_course_sections [course_A])
      (list_product (lecture_lists [course_A])) 2 (f + 1) st1_A =
    gen_loop id_oracle (build_course_sections [course_A])
      (list_product (lecture_lists [course_A])) 2 f st1_A := rfl

theorem gen_loop_st1_none : ∀ f : Nat,
    gen_loop id_oracle (build_course_sections [course_A])
      (list_product (lecture_lists [course_A])) 2 f st1_A = none := by
  intro f
  induction f with
  | zero => rfl
  | succ f ih => rw [gen_loop_st1_step]; exact ih

/-- C1 refuted on the code: on the one-course input `[course_A]` (a
single lecture, no secondary sections) with `max_schedules = 2`, the
`while` loop finds the only existing schedule in its first iteration,
then wraps the index around (`% len`, app.py 266) and revisits the same
combination forever — it never terminates, for any number of observed
iterations `fuel`.  `generate_diverse_schedules` cannot return fewer
schedules than requested: it either reaches the cap exactly or runs
forever (or raises). -/
theorem c1_no_exhaustion_check_loops_forever (fuel : Nat) :
    generate_diverse_schedules id id_oracle fuel [course_A] 2 = none := by
  cases fuel with
  | zero => rfl
  | succ f =>
    show gen_loop id_oracle (build_course_sections [course_A])
      (list_product (lecture_lists [course_A])) 2 (f + 1)
      { valid_schedules := [], seen := [], idx := 0, ctr := 0 } = none
    have h1 : gen_loop id_oracle (build_course_sections [course_A])
        (list_product (lecture_lists [course_A])) 2 (f + 1)
        { valid_schedules := [], seen := [], idx := 0, ctr := 0 } =
      gen_loop id_oracle (build_course_sections [course_A])
        (list_product (lecture_lists [course_A])) 2 f st1_A := rfl
    rw [h1]
    exact gen_loop_st1_none f
/-! ## Layout of assembled schedules (C10) -/

theorem attach_chunks {oracle : Nat → List Sect → List Sect}
    (hor : ∀ (n : Nat) (l : List Sect) (x : Sect), x ∈ oracle n l → x ∈ l)
    {buckets : List (List Sect)} {sched : List Sect} {ctr : Nat}
    {out : List Sect × Nat × Bool}
    (h : attach_for_course oracle buckets sched ctr = some out) :
    ∃ opts : List (Option Sect), opts.length ≤ buckets.length ∧
      out.1 = sched ++ opts.flatMap Option.toList ∧
      ∀ (i : Nat) (h1 : i < opts.length) (h2 : i < buckets.length)
        (s : Sect), opts.get ⟨i, h1⟩ = some s → s ∈ buckets.get ⟨i, h2⟩ := by
  induction buckets generalizing sched ctr with
  | nil =>
    obtain rfl : out = (sched, ctr, true) := (Option.some.inj h).symm
    exact ⟨[], by simp, by simp, fun i h1 => absurd h1 (Nat.not_lt_zero i)⟩
  | cons b rest ih =>
    rw [attach_for_course] at h
    by_cases hb : b = []
    · rw [if_pos hb] at h
      obtain ⟨opts, hlen, hout, hmem⟩ := ih h
      refine ⟨none :: opts, Nat.succ_le_succ hlen, by simpa using hout, ?_⟩
      intro i h1 h2 s hs
      cases i with
      | zero => exact Option.noConfusion hs
      | succ j =>
        simp only [List.get_cons_succ] at hs ⊢
        exact hmem j _ _ s hs
    · rw [if_neg hb] at h
      cases hps : pick_section sched (oracle ctr b) with
      | none => simp only [hps] at h; exact Option.noConfusion h
      | some o =>
        simp only [hps] at h
        cases o with
        | none =>
          obtain rfl : out = (sched, ctr + 1, false) := (Option.some.inj h).symm
          exact ⟨[], by simp, by simp, fun i h1 => absurd h1 (Nat.not_lt_zero i)⟩
        | some c =>
          obtain ⟨opts, hlen, hout, hmem⟩ := ih h
          have hc : c ∈ b := hor _ _ _ (pick_section_mem hps).2
          refine ⟨some c :: opts, Nat.succ_le_succ hlen, ?_, ?_⟩
          · rw [hout]
            simp
          · intro i h1 h2 s hs
            cases i with
            | zero =>
              obtain rfl : c = s := Option.some.inj hs
              exact hc
            | succ j =>
              simp only [List.get_cons_succ] at hs ⊢
              exact hmem j _ _ s hs

theorem attempt_chunks {oracle : Nat → List Sect → List Sect}
    (hor : ∀ (n : Nat) (l : List Sect) (x : Sect), x ∈ oracle n l → x ∈ l)
    {combo : List Sect} {items : List (String × CourseSections)}
    {sched : List Sect} {ctr : Nat} {valid : Bool}
    {out : List Sect × Nat × Bool}
    (h : attempt_courses oracle combo items sched ctr valid = some out) :
    ∃ chunks : List (List Sect), chunks.length = items.length ∧
      out.1 = sched ++ chunks.flatten ∧
      ∀ (i : Nat) (h1 : i < chunks.length) (h2 : i < items.length),
        chunk_ok (items.get ⟨i, h2⟩).2 (chunks.get ⟨i, h1⟩) := by
  induction items generalizing sched ctr valid with
  | nil =>
    obtain rfl : out = (sched, ctr, valid) := (Option.some.inj h).symm
    exact ⟨[], rfl, by simp, fun i h1 => absurd h1 (Nat.not_lt_zero i)⟩
  | cons p items ih =>
    obtain ⟨cid, cs⟩ := p
    rw [attempt_courses] at h
    cases hf : combo.find? (fun lec => cs.lec.contains lec) with
    | none =>
      simp only [hf] at h
      obtain ⟨chunks, hlen, hout, hcok⟩ := ih h
      refine ⟨[] :: chunks, by simpa using hlen, by simpa using hout, ?_⟩
      intro i h1 h2
      cases i with
      | zero =>
        exact ⟨none, none, none, rfl, fun s hs => Option.noConfusion hs,
          fun s hs => Option.noConfusion hs, fun s hs => Option.noConfusion hs⟩
      | succ j =>
        simp only [List.get_cons_succ]
        exact hcok j _ _
    | some lec =>
      cases ha : attach_for_course oracle [cs.dis, cs.lab, cs.qz] sched ctr with
      | none => simp only [hf, ha] at h; exact Option.noConfusion h
      | some r =>
        obtain ⟨s', c', ok⟩ := r
        simp only [hf, ha] at h
        obtain ⟨opts, hlenopts, hs', hmemopts⟩ := attach_chunks hor ha
        obtain ⟨chunks, hlen, hout, hcok⟩ := ih h
        refine ⟨(opts.flatMap Option.toList) :: chunks, by simpa using hlen,
          ?_, ?_⟩
        · rw [hout]
          simp only at hs'
          rw [hs']
          simp
        · intro i h1 h2
          cases i with
          | zero =>
            show chunk_ok cs (opts.flatMap Option.toList)
            rcases opts with _ | ⟨o1, opts⟩
            · exact ⟨none, none, none, rfl, fun s hs => Option.noConfusion hs,
                fun s hs => Option.noConfusion hs,
                fun s hs => Option.noConfusion hs⟩
            rcases opts with _ | ⟨o2, opts⟩
            · refine ⟨o1, none, none, by simp, ?_, ?_, ?_⟩
              · intro s hs
                subst hs
                simpa using hmemopts 0 (by simp) (by simp) s rfl
              · intro s hs; exact Option.noConfusion hs
              · intro s hs; exact Option.noConfusion hs
            rcases opts with _ | ⟨o3, opts⟩
            · refine ⟨o1, o2, none, by simp, ?_, ?_, ?_⟩
              · intro s hs
                subst hs
                simpa using hmemopts 0 (by simp) (by simp) s rfl
              · intro s hs
                subst hs
                simpa using hmemopts 1 (by simp) (by simp) s rfl
              · intro s hs; exact Option.noConfusion hs
            rcases opts with _ | ⟨o4, opts⟩
            · refine ⟨o1, o2, o3, by simp, ?_, ?_, ?_⟩
              · intro s hs
                subst hs
                simpa using hmemopts 0 (by simp) (by simp) s rfl
              · intro s hs
                subst hs
                simpa using hmemopts 1 (by simp) (by simp) s rfl
              · intro s hs
                subst hs
                simpa using hmemopts 2 (by simp) (by simp) s rfl
            · exfalso
              simp at hlenopts
          | succ j =>
            simp only [List.get_cons_succ]
            exact hcok j _ _
theorem list_product_mem {ls : List (List Sect)} {combo : List Sect}
    (h : combo ∈ list_product ls) :
    combo.length = ls.length ∧
    ∀ (i : Nat) (h1 : i < combo.length) (h2 : i < ls.length),
      combo.get ⟨i, h1⟩ ∈ ls.get ⟨i, h2⟩ := by
  induction ls generalizing combo with
  | nil =>
    rw [list_product] at h
    obtain rfl : combo = [] := List.mem_singleton.mp h
    exact ⟨rfl, fun i h1 => absurd h1 (Nat.not_lt_zero i)⟩
  | cons l ls ih =>
    rw [list_product] at h
    rcases List.mem_flatMap.mp h with ⟨x, hx, hcombo⟩
    rcases List.mem_map.mp hcombo with ⟨t, ht, rfl⟩
    obtain ⟨hlen, hmem⟩ := ih ht
    refine ⟨by simp [hlen], ?_⟩
    intro i h1 h2
    cases i with
    | zero => exact hx
    | succ j =>
      simp only [List.get_cons_succ]
      exact hmem j _ _

theorem mem_sections_of_type {t : String} {ss : List Sect} {s : Sect}
    (h : s ∈ sections_of_type t ss) : s ∈ ss ∧ s.type = t := by
  rw [sections_of_type, List.mem_filter] at h
  exact ⟨h.1, by simpa using h.2⟩

theorem mem_tagged {c : Course} {s : Sect}
    (h : s ∈ c.sections.map (tag_course c.published_course_id)) :
    s.course_id = c.published_course_id := by
  rcases List.mem_map.mp h with ⟨s₀, _, rfl⟩
  rfl

theorem mem_dict_insert {d : List (String × CourseSections)} {k : String}
    {v : CourseSections} {p : String × CourseSections}
    (h : p ∈ dict_insert k v d) : p = (k, v) ∨ p ∈ d := by
  induction d with
  | nil => exact Or.inl (List.mem_singleton.mp h)
  | cons q rest ih =>
    obtain ⟨k', v'⟩ := q
    rw [dict_insert] at h
    by_cases hk : k' = k
    · rw [if_pos hk] at h
      rcases List.mem_cons.mp h with h' | h'
      · exact Or.inl h'
      · exact Or.inr (List.mem_cons_of_mem _ h')
    · rw [if_neg hk] at h
      rcases List.mem_cons.mp h with h' | h'
      · exact Or.inr (h' ▸ List.mem_cons_self _ _)
      · rcases ih h' with h'' | h''
        · exact Or.inl h''
        · exact Or.inr (List.mem_cons_of_mem _ h'')

theorem mem_build_course_sections {cd : List Course}
    {p : String × CourseSections} (h : p ∈ build_course_sections cd) :
    ∃ c ∈ cd, p = (c.published_course_id, classify_course c) := by
  suffices haux : ∀ (cs : List Course) (acc : List (String × CourseSections)),
      p ∈ cs.foldl
        (fun d c => dict_insert c.published_course_id (classify_course c) d)
        acc →
      p ∈ acc ∨ ∃ c ∈ cs, p = (c.published_course_id, classify_course c) by
    rcases haux cd [] h with h' | h'
    · exact absurd h' (List.not_mem_nil p)
    · exact h'
  intro cs
  induction cs with
  | nil => intro acc h'; exact Or.inl h'
  | cons c cs ih =>
    intro acc h'
    rw [List.foldl_cons] at h'
    rcases ih _ h' with h'' | h''
    · rcases mem_dict_insert h'' with h3 | h3
      · exact Or.inr ⟨c, List.mem_cons_self _ _, h3⟩
      · exact Or.inl h3
    · rcases h'' with ⟨c', hc', hp⟩
      exact Or.inr ⟨c', List.mem_cons_of_mem _ hc', hp⟩
/-- C10: layout of every returned schedule.  Under the actual sampling
semantics (`oracle` only permutes its list, `shuffle` only permutes the
combination list), every schedule returned by the generator is its
lecture combination — one lecture per course, in combination order, all
of type `"Lec"` — followed by the per-course secondary chunks in
`course_sections` dict order, each chunk holding at most one Discussion,
then at most one Lab, then at most one Quiz of that course (`chunk_ok`),
so secondary sections are only ever appended after the lectures. -/
theorem c10_schedule_layout
    (shuffle : List (List Sect) → List (List Sect))
    (oracle : Nat → List Sect → List Sect) (fuel : Nat)
    (cd : List Course) (maxS : Nat) (res : List (List Sect))
    (h : generate_diverse_schedules shuffle oracle fuel cd maxS = some res)
    (hor : ∀ (n : Nat) (l : List Sect) (x : Sect), x ∈ oracle n l → x ∈ l)
    (hsh : ∀ (l : List (List Sect)) (x : List Sect), x ∈ shuffle l → x ∈ l) :
    (∀ p ∈ build_course_sections cd,
      (∀ s ∈ p.2.dis, s.type = "Dis" ∧ s.course_id = p.1) ∧
      (∀ s ∈ p.2.lab, s.type = "Lab" ∧ s.course_id = p.1) ∧
      (∀ s ∈ p.2.qz, s.type = "Qz" ∧ s.course_id = p.1)) ∧
    ∀ sched ∈ res, ∃ combo : List Sect,
      combo ∈ list_product (lecture_lists cd) ∧
      combo.length = (lecture_lists cd).length ∧
      (∀ (i : Nat) (h1 : i < combo.length)
         (h2 : i < (lecture_lists cd).length),
         combo.get ⟨i, h1⟩ ∈ (lecture_lists cd).get ⟨i, h2⟩) ∧
      (∀ s ∈ combo, s.type = "Lec") ∧
      assembled_shape (build_course_sections cd) combo sched := by
  constructor
  · intro p hp
    obtain ⟨c, hc, rfl⟩ := mem_build_course_sections hp
    refine ⟨?_, ?_, ?_⟩ <;>
      · intro s hs
        obtain ⟨hmem, htype⟩ := mem_sections_of_type hs
        exact ⟨htype, mem_tagged hmem⟩
  · unfold generate_diverse_schedules at h
    obtain ⟨sn, hP⟩ := gen_loop_inv
      (P := fun v _ => ∀ s ∈ v, ∃ combo : List Sect,
        combo ∈ shuffle (list_product (lecture_lists cd)) ∧
        assembled_shape (build_course_sections cd) combo s)
      (Q := fun s => ∃ combo : List Sect,
        combo ∈ shuffle (list_product (lecture_lists cd)) ∧
        assembled_shape (build_course_sections cd) combo s)
      (fun combo hmem _ ctr out hat _ => by
        obtain ⟨chunks, hlen, hout, hcok⟩ := attempt_chunks hor hat
        exact ⟨combo, hmem, chunks, hlen, hout, hcok⟩)
      (fun v sn sched hv hq _ _ s hs => by
        rcases List.mem_append.mp hs with h' | h'
        · exact hv s h'
        · rw [List.mem_singleton] at h'
          exact h' ▸ hq)
      fuel _ res h (fun s hs => absurd hs (List.not_mem_nil s))
    intro sched hs
    obtain ⟨combo, hcombo, hshape⟩ := hP sched hs
    have hprod : combo ∈ list_product (lecture_lists cd) := hsh _ _ hcombo
    obtain ⟨hlen, hpt⟩ := list_product_mem hprod
    refine ⟨combo, hprod, hlen, hpt, ?_, hshape⟩
    intro s hsmem
    obtain ⟨⟨i, hi⟩, rfl⟩ := List.mem_iff_get.mp hsmem
    have h2 : i < (lecture_lists cd).length := by
      rw [← hlen]; exact hi
    have := hpt i hi h2
    have hget : (lecture_lists cd).get ⟨i, h2⟩ =
        (classify_course (cd.get ⟨i, by simpa [lecture_lists] using h2⟩)).lec := by
      simp [lecture_lists]
    rw [hget] at this
    exact (mem_sections_of_type this).2

/-- Witness for C10 on a concrete successful generation. -/
theorem c10_schedule_layout_witness :
    (∀ p ∈ build_course_sections [course_A],
      (∀ s ∈ p.2.dis, s.type = "Dis" ∧ s.course_id = p.1) ∧
      (∀ s ∈ p.2.lab, s.type = "Lab" ∧ s.course_id = p.1) ∧
      (∀ s ∈ p.2.qz, s.type = "Qz" ∧ s.course_id = p.1)) ∧
    ∃ combo : List Sect,
      combo ∈ list_product (lecture_lists [course_A]) ∧
      combo.length = (lecture_lists [course_A]).length ∧
      (∀ (i : Nat) (h1 : i < combo.length)
         (h2 : i < (lecture_lists [course_A]).length),
         combo.get ⟨i, h1⟩ ∈ (lecture_lists [course_A]).get ⟨i, h2⟩) ∧
      (∀ s ∈ combo, s.type = "Lec") ∧
      assembled_shape (build_course_sections [course_A]) combo [lec_A'] :=
  ⟨(c10_schedule_layout id id_oracle 2 [course_A] 1 [[lec_A']] (by decide)
      (fun _ _ _ hx => hx) (fun _ _ hx => hx)).1,
   (c10_schedule_layout id id_oracle 2 [course_A] 1 [[lec_A']] (by decide)
      (fun _ _ _ hx => hx) (fun _ _ hx => hx)).2 [lec_A'] (by simp)⟩
end ScheduleBuilder
